import Mathlib

/-!
Verification of the DT-BASE causal model execution notebook (`src/dt_base.ipynb`).

The notebook aggregates uncertain evidence into per-(parent, child) "super-edge"
strengths, generates noisy-OR conditional probability tables (CPTs), and runs
per-sample Bayesian inference on the resulting belief network.  This file gives
a shallow embedding of the notebook's computations over `ℚ` (one Monte Carlo
sample at a time: the per-sample entries of the numpy vectors become plain
rationals) and proves, or refutes, the specified properties about them.
-/

namespace DTBase

/-- One row of `edges.csv`: a causal edge with its id, its parent and child
node ids, and the id of the evidence reference supporting it.  The per-sample
drawn values of `m1` (per reference), `m2` and `m3` (per edge) are passed
separately as functions, mirroring the sampled dataframes of the notebook. -/
structure CausalEdge where
  edge_id : String
  parent_id : String
  child_id : String
  ref_id : String
  deriving DecidableEq, Repr

/-- The raw (unnormalized) weight of one edge in one sample:
`m1[edges.ref_id[edge_id]] * m3[edge_id]`. -/
def rawWeight (m1 m3 : String → ℚ) (e : CausalEdge) : ℚ :=
  m1 e.ref_id * m3 e.edge_id

/-- The edges of the table sharing a given (parent, child) pair. -/
def pairEdges (edges : List CausalEdge) (p c : String) : List CausalEdge :=
  edges.filter (fun e => e.parent_id == p && e.child_id == c)

/-- `normWeights[(p, c)]`: the sum of the raw weights accumulated over every
edge with parent `p` and child `c` (the notebook's first loop). -/
def normWeights (edges : List CausalEdge) (m1 m3 : String → ℚ) (p c : String) : ℚ :=
  ((pairEdges edges p c).map (rawWeight m1 m3)).sum

/-- `weights[edge_id]`: the raw weight of the edge divided by the accumulated
raw weight of its own (parent, child) pair (the notebook's second loop). -/
def weight (edges : List CausalEdge) (m1 m3 : String → ℚ) (e : CausalEdge) : ℚ :=
  rawWeight m1 m3 e / normWeights edges m1 m3 e.parent_id e.child_id

/-- `superEdges[(p, c)]`: the weighted sum `Σᵢ weights[eᵢ] * m2[eᵢ]` over the
edges of the pair (the notebook's third loop). -/
def superEdge (edges : List CausalEdge) (m1 m2 m3 : String → ℚ) (p c : String) : ℚ :=
  ((pairEdges edges p c).map (fun e => weight edges m1 m3 e * m2 e.edge_id)).sum

/-- The list of `m2` draws of the edges contributing to a pair. -/
def m2Draws (edges : List CausalEdge) (m2 : String → ℚ) (p c : String) : List ℚ :=
  (pairEdges edges p c).map (fun e => m2 e.edge_id)

/-- Concrete edge table used for the aggregation witness: two evidence streams
supporting the single causal relationship a → b. -/
def edgesW : List CausalEdge :=
  [⟨"e1", "a", "b", "r1"⟩, ⟨"e2", "a", "b", "r2"⟩]

/-- One call of `np.random.uniform(lo, hi)`: the library primitive is modelled
as the affine map of a unit draw `u ∈ [0, 1]` onto the requested interval.
Every sampled parameter of the notebook (each reference's m1, each edge's m2
and m3, and the leak) is one such call with its own bounds and unit draw. -/
def uniformDraw (lo hi u : ℚ) : ℚ := lo + u * (hi - lo)

/-- The leak draw `np.random.uniform(.9, .99)` of the notebook. -/
def leakDraw (u : ℚ) : ℚ := uniformDraw (9/10) (99/100) u

/-! ### CPT generation

`cptCombos` enumerates, per node, the `2^k` parent-state combinations in the
order produced by `itertools.product([True, False], repeat=k)` over the node's
incoming-adjacency list (`True` marks a parent asserted Unfavorable, which the
notebook represents as a pyeda `Variable`; `False`, a negated variable, marks
it Favorable).  `cptNode` is the notebook's CPT loop for one node and one
sample: `tmp` starts at 1, is multiplied by `(1 - superEdges[parent, node])`
at every Unfavorable parent, and — exactly as in the source, where the
`extend` call sits inside the parent loop — the pair
`[1 - leak * tmp, leak * tmp]` is appended after every parent position of
every combination. -/

/-- All boolean tuples of length `k` in `itertools.product([True, False])`
order. -/
def boolTuples : ℕ → List (List Bool)
  | 0 => [[]]
  | k + 1 =>
      ((boolTuples k).map (fun t => true :: t)) ++
      ((boolTuples k).map (fun t => false :: t))

/-- The parent-state combinations of a node with the given incoming-parent
list: each combination tags every parent with its asserted state. -/
def cptCombos (incoming : List String) : List (List (String × Bool)) :=
  (boolTuples incoming.length).map (fun t => incoming.zip t)

/-- The notebook's inner CPT loop over one combination, carrying the running
product `tmp`; a probability pair is emitted after every parent position
(the source's `extend` is nested inside the parent loop). -/
def comboEntries (se : String → String → ℚ) (leak : ℚ) (node : String) :
    List (String × Bool) → ℚ → List ℚ
  | [], _ => []
  | (p, b) :: rest, tmp =>
      let tmp2 := if b then tmp * (1 - se p node) else tmp
      (1 - leak * tmp2) :: (leak * tmp2) :: comboEntries se leak node rest tmp2

/-- The flat probability list the notebook accumulates in `cpts[node]` for one
node during one sample. -/
def cptNode (se : String → String → ℚ) (leak : ℚ) (node : String)
    (incoming : List String) : List ℚ :=
  (cptCombos incoming).flatMap (fun combo => comboEntries se leak node combo 1)

/-- Reverse-adjacency lookup: the incoming-parent list recorded for a node by
`G.reverse().adjacency()`, or `none` when the node is not in the graph. -/
def lookupAdj (adj : List (String × List String)) (n : String) :
    Option (List String) :=
  (adj.find? (fun g => g.1 == n)).map (fun g => g.2)

/-- The per-sample CPT list stored for each node: nodes of the graph get the
CPT loop's output for their incoming-parent list, all other nodes keep the
empty list they were initialized with. -/
def cptsAt (adj : List (String × List String)) (se : String → String → ℚ)
    (leak : ℚ) (n : String) : List ℚ :=
  match lookupAdj adj n with
  | some incoming => cptNode se leak n incoming
  | none => []

/-- The probability vector installed on a node at inference time:
`[p[sample] for p in cpts[node_id]] if cpts[node_id] else [1, 0]`. -/
def installProbs (cptsOf : String → List ℚ) (n : String) : List ℚ :=
  if (cptsOf n).isEmpty then [1, 0] else cptsOf n

/-! ### Per-node-leak variant of the CPT loop (spec wording for claim C8)

The spec flags, as an ambiguity, the alternative in which the leak parameter
is differentiated per node; `comboEntriesPL`/`cptsAtPL` implement that
alternative (each node's entries use `leakOf node`), so that the notebook's
single-leak semantics can be stated as the constant-assignment instance. -/

/-- Per-node-leak variant of `comboEntries`: entries for `node` use
`leakOf node`. -/
def comboEntriesPL (se : String → String → ℚ) (leakOf : String → ℚ)
    (node : String) : List (String × Bool) → ℚ → List ℚ
  | [], _ => []
  | (p, b) :: rest, tmp =>
      let tmp2 := if b then tmp * (1 - se p node) else tmp
      (1 - leakOf node * tmp2) :: (leakOf node * tmp2) ::
        comboEntriesPL se leakOf node rest tmp2

/-- Per-node-leak variant of `cptNode`. -/
def cptNodePL (se : String → String → ℚ) (leakOf : String → ℚ) (node : String)
    (incoming : List String) : List ℚ :=
  (cptCombos incoming).flatMap (fun combo => comboEntriesPL se leakOf node combo 1)

/-- Per-node-leak variant of `cptsAt`. -/
def cptsAtPL (adj : List (String × List String)) (se : String → String → ℚ)
    (leakOf : String → ℚ) (n : String) : List ℚ :=
  match lookupAdj adj n with
  | some incoming => cptNodePL se leakOf n incoming
  | none => []

/-! ### Spec-side CPT (one pair per combination, for claim C1) -/

/-- The full noisy-OR product `Π_{parent p Unfavorable in the combination}
(1 - superEdgeStrength(p → node))`. -/
def noisyOrProd (se : String → String → ℚ) (node : String) :
    List (String × Bool) → ℚ
  | [] => 1
  | (p, b) :: rest =>
      (if b then 1 - se p node else 1) * noisyOrProd se node rest

/-- Follows the spec's words (§4.4): for each parent-state combination the
generator emits exactly one probability pair, whose first (Unfavorable) entry
is `1 - leak * Π (1 - strength)` and whose second entry is the complement. -/
def specCptNode (se : String → String → ℚ) (leak : ℚ) (node : String)
    (incoming : List String) : List ℚ :=
  (cptCombos incoming).flatMap (fun combo =>
    [1 - leak * noisyOrProd se node combo, leak * noisyOrProd se node combo])

/-- Reverse adjacency of the two-parent failing input for claim C1. -/
def adjC1 : List (String × List String) := [("b", ["a1", "a2"])]

/-- Super-edge strengths of the failing input for claim C1:
strength 1/2 on a1 → b and 1/4 on a2 → b. -/
def seC1 : String → String → ℚ := fun p _ => if p = "a1" then 1/2 else 1/4

/-! ### Belief-network construction and the inference loop -/

/-- The structural content of the `pybbn` `Bbn` object: the ids of the nodes
added to it and the directed edges added to it. -/
structure Bbn where
  nodes : List String
  edges : List (String × String)
  deriving DecidableEq, Repr

/-- `dt_base.add_node(node)`. -/
def Bbn.add_node (b : Bbn) (n : String) : Bbn :=
  { b with nodes := b.nodes ++ [n] }

/-- `dt_base.add_edge(edge)` — the method the notebook's edge loop references
but never invokes. -/
def Bbn.add_edge (b : Bbn) (e : String × String) : Bbn :=
  { b with edges := b.edges ++ [e] }

/-- The notebook's construction of the `dt_base` network: every node is added
with `add_node`, but the edge loop's body is the bare expression
`dt_base.add_edge` — an attribute access without a call — so each iteration
leaves the network unchanged. -/
def buildDtBase (nodeIds : List String) (superEdgePairs : List (String × String)) :
    Bbn :=
  superEdgePairs.foldl (fun acc _ => acc)
    (nodeIds.foldl Bbn.add_node { nodes := [], edges := [] })

/-- The mutable state the sampling loop acts on: the network structure plus
the probability vectors currently installed on the nodes. -/
structure BbnState where
  net : Bbn
  probs : String → List ℚ

/-- One iteration of the notebook's inference loop: overwrite `node.probs` on
every node with the current sample's CPT vector (or `[1, 0]` when the stored
CPT list is empty), then run the inference call — modelled as a pure function
of the state returning the target node's extracted potential pair. -/
def inferStep (infer : BbnState → ℚ × ℚ) (cptsOfs : ℕ → String → List ℚ)
    (sample : ℕ) (st : BbnState) : BbnState × (ℚ × ℚ) :=
  let st2 : BbnState := { st with probs := fun n => installProbs (cptsOfs sample) n }
  (st2, infer st2)

/-- The notebook's `for sample in range(numSamples)` loop, threading the
network state and appending each sample's extracted target potential to
`target_probs`. -/
def runSamples (infer : BbnState → ℚ × ℚ) (cptsOfs : ℕ → String → List ℚ)
    (samples : List ℕ) (st : BbnState) : BbnState × List (ℚ × ℚ) :=
  samples.foldl
    (fun acc s =>
      let out := inferStep infer cptsOfs s acc.1
      (out.1, acc.2 ++ [out.2]))
    (st, [])

/-! ### Modelled inference engine (spec §4.5)

The exact-inference step of the notebook is the external `pybbn` call
`InferenceController.apply` followed by `get_bbn_potential(target)`; neither
it nor the spec's `InferenceConsistencyError` check appears in the repository
source.  Modelled from the spec: exact inference over the belief network is
full joint enumeration — the joint probability of a complete state assignment
is the product, over the nodes in topological order, of each node's
conditional probability of its own state given the states of the earlier
nodes — and the marginal pair extracted for the target node is checked to sum
to 1 within the tolerance 1e-9, failing with `InferenceConsistencyError`
otherwise. -/

/-- The error taxonomy of spec §7. -/
inductive DtError where
  | invalidBounds
  | degenerateAggregation
  | graphValidation (msg : String)
  | inferenceConsistency
  deriving DecidableEq, Repr

/-- A node's conditional-probability factor: given the states of the earlier
nodes in topological order (the node's potential parents) and the node's own
state, its conditional probability. -/
def Factor : Type := List Bool → Bool → ℚ

/-- The joint probability of completing the assignment: each remaining factor
is evaluated at the already-assigned prefix and its own state. -/
def jointProbAux : List Factor → List Bool → List Bool → ℚ
  | [], _, [] => 1
  | f :: fs, pre, b :: bs => f pre b * jointProbAux fs (pre ++ [b]) bs
  | _, _, _ => 1

/-- The joint probability of one complete state assignment. -/
def jointProb (fs : List Factor) (bs : List Bool) : ℚ :=
  jointProbAux fs [] bs

/-- The total joint mass reachable from an assigned prefix, summed by
recursion over the remaining nodes. -/
def jointSumFrom : List Factor → List Bool → ℚ
  | [], _ => 1
  | f :: fs, pre =>
      f pre true * jointSumFrom fs (pre ++ [true]) +
      f pre false * jointSumFrom fs (pre ++ [false])

/-- The marginal mass of the target node (position `j`) being in state `v`:
the sum of the joint probabilities of all complete assignments giving it
state `v`. -/
def margMass (fs : List Factor) (j : ℕ) (v : Bool) : ℚ :=
  (((boolTuples fs.length).filter (fun bs => bs.getD j false == v)).map
    (jointProb fs)).sum

/-- The two marginal probabilities extracted for the target node, in the
state order (Good, Bad) = (Favorable, Unfavorable). -/
def marginalPair (fs : List Factor) (j : ℕ) : ℚ × ℚ :=
  (margMass fs j false, margMass fs j true)

/-- The floating-point tolerance 1e-9 of the numeric contract. -/
def invTol : ℚ := 1 / 1000000000

/-- Modelled from the spec: the per-sample extraction of the target marginals
with the numeric contract of §4.5 — the two probabilities are returned when
they sum to 1 within `invTol` and the run fails with
`InferenceConsistencyError` otherwise. -/
def extractTarget (fs : List Factor) (j : ℕ) : Except DtError (ℚ × ℚ) :=
  let pr := marginalPair fs j
  if |pr.1 + pr.2 - 1| ≤ invTol then Except.ok pr
  else Except.error DtError.inferenceConsistency

/-! ### Modelled graph builder (spec §4.3)

The notebook builds its graph with the external `networkx` call
`G.add_edges_from(superEdges)`, which performs no validation; none of the
validation the spec requires appears in the repository source.  Modelled from
the spec: the Graph Builder, given the node list and the distinct
(parent, child) pairs, checks that every endpoint is a listed node, runs a
topological sort (removing, at each step, a node with no incoming edge from
the remaining nodes), and checks that the designated target node exists,
failing with `GraphValidationError` on any violation. -/

/-- Decides whether node `n` has no incoming edge from a node still in
`remaining`. -/
def noIncoming (remaining : List String) (edges : List (String × String))
    (n : String) : Bool :=
  decide (∀ e ∈ edges, ¬(e.2 = n ∧ e.1 ∈ remaining))

/-- Fuel-indexed topological sort: repeatedly emit a remaining node with no
incoming edge from the remaining set; fail when no such node exists.  The
fuel (initially the node count) bounds the recursion. -/
def topoAux (edges : List (String × String)) :
    ℕ → List String → Option (List String)
  | _, [] => some []
  | 0, _ :: _ => none
  | fuel + 1, a :: rest =>
      match (a :: rest).find? (noIncoming (a :: rest) edges) with
      | none => none
      | some n =>
          (topoAux edges fuel ((a :: rest).erase n)).map (fun order => n :: order)

/-- Topological sort of the node list with respect to the edge list. -/
def topoSort (nodes : List String) (edges : List (String × String)) :
    Option (List String) :=
  topoAux edges nodes.length nodes

/-- Checks that every edge endpoint is a listed node. -/
def allEndpointsIn (nodes : List String) (pairs : List (String × String)) : Bool :=
  pairs.all (fun e => nodes.contains e.1 && nodes.contains e.2)

/-- Modelled from the spec: one-time graph construction with validation —
endpoint check, topological sort (acyclicity), and target existence — failing
with `GraphValidationError` on any violation and returning a topological
order of the nodes on success. -/
def buildGraph (nodes : List String) (pairs : List (String × String))
    (target : String) : Except DtError (List String) :=
  if allEndpointsIn nodes pairs then
    match topoSort nodes pairs with
    | none => Except.error (DtError.graphValidation "cycle")
    | some order =>
        if nodes.contains target then Except.ok order
        else Except.error (DtError.graphValidation "missing target")
  else Except.error (DtError.graphValidation "dangling edge endpoint")

/-- A directed cycle through `x` and then `xs`: consecutive elements are
edges and the last element closes back to `x`.  A self-loop is the case
`xs = []`. -/
def IsCycle (pairs : List (String × String)) (x : String) (xs : List String) :
    Prop :=
  List.Chain (fun a b => (a, b) ∈ pairs) x xs ∧ (xs.getLastD x, x) ∈ pairs

/-- The edge list admits a directed cycle. -/
def HasCycle (pairs : List (String × String)) : Prop :=
  ∃ x xs, IsCycle pairs x xs

/-- Concrete two-node factor list (A → B) for the inference-consistency
witness: A is uniform, B's conditional depends on A's state. -/
def factorsW : List Factor :=
  [fun _ _ => 1/2,
   fun pre b =>
     cond (pre.getD 0 false) (cond b (19/100) (81/100)) (cond b (9/10) (1/10))]

lemma mem_pairEdges {edges : List CausalEdge} {p c : String} {e : CausalEdge}
    (h : e ∈ pairEdges edges p c) : e.parent_id = p ∧ e.child_id = c := by
  have := List.of_mem_filter h
  simp only [Bool.and_eq_true, beq_iff_eq] at this
  exact this

lemma sum_map_div (l : List CausalEdge) (f : CausalEdge → ℚ) (s : ℚ) :
    (l.map (fun e => f e / s)).sum = (l.map f).sum / s := by
  induction l with
  | nil => simp
  | cons a t ih => simp [ih, div_add_div_same]

/-- Every nonempty list of rationals has a least element. -/
lemma exists_min_mem (l : List ℚ) (h : l ≠ []) : ∃ m ∈ l, ∀ x ∈ l, m ≤ x := by
  induction l with
  | nil => exact absurd rfl h
  | cons a t ih =>
    rcases t.eq_nil_or_concat with rfl | _
    · exact ⟨a, by simp, by simp⟩
    · by_cases ht : t = []
      · exact ⟨a, by simp, by simp [ht]⟩
      · obtain ⟨m, hm, hmin⟩ := ih ht
        refine ⟨min a m, ?_, ?_⟩
        · rcases le_total a m with hh | hh
          · simp [min_eq_left hh]
          · simp [min_eq_right hh, hm]
        · intro x hx
          rcases List.mem_cons.mp hx with rfl | hx
          · exact min_le_left _ _
          · exact le_trans (min_le_right _ _) (hmin x hx)

/-- Every nonempty list of rationals has a greatest element. -/
lemma exists_max_mem (l : List ℚ) (h : l ≠ []) : ∃ m ∈ l, ∀ x ∈ l, x ≤ m := by
  induction l with
  | nil => exact absurd rfl h
  | cons a t ih =>
    by_cases ht : t = []
    · exact ⟨a, by simp, by simp [ht]⟩
    · obtain ⟨m, hm, hmax⟩ := ih ht
      refine ⟨max a m, ?_, ?_⟩
      · rcases le_total a m with hh | hh
        · simp [max_eq_right hh, hm]
        · simp [max_eq_left hh]
      · intro x hx
        rcases List.mem_cons.mp hx with rfl | hx
        · exact le_max_left _ _
        · exact le_trans (hmax x hx) (le_max_right _ _)

/-- A weighted sum with nonnegative weights is bounded below by any uniform
lower bound of the values, scaled by the total weight. -/
lemma le_weighted_sum (l : List CausalEdge) (w x : CausalEdge → ℚ) (lo : ℚ)
    (hw : ∀ e ∈ l, 0 ≤ w e) (hx : ∀ e ∈ l, lo ≤ x e) :
    lo * (l.map w).sum ≤ (l.map (fun e => w e * x e)).sum := by
  induction l with
  | nil => simp
  | cons a t ih =>
    simp only [List.map_cons, List.sum_cons]
    have h1 : lo * w a ≤ w a * x a := by
      calc lo * w a = w a * lo := mul_comm _ _
        _ ≤ w a * x a :=
          mul_le_mul_of_nonneg_left (hx a (by simp)) (hw a (by simp))
    have h2 := ih (fun e he => hw e (by simp [he])) (fun e he => hx e (by simp [he]))
    nlinarith [h1, h2]

/-- A weighted sum with nonnegative weights is bounded above by any uniform
upper bound of the values, scaled by the total weight. -/
lemma weighted_sum_le (l : List CausalEdge) (w x : CausalEdge → ℚ) (hi : ℚ)
    (hw : ∀ e ∈ l, 0 ≤ w e) (hx : ∀ e ∈ l, x e ≤ hi) :
    (l.map (fun e => w e * x e)).sum ≤ hi * (l.map w).sum := by
  induction l with
  | nil => simp
  | cons a t ih =>
    simp only [List.map_cons, List.sum_cons]
    have h1 : w a * x a ≤ hi * w a := by
      calc w a * x a ≤ w a * hi :=
          mul_le_mul_of_nonneg_left (hx a (by simp)) (hw a (by simp))
        _ = hi * w a := mul_comm _ _
    have h2 := ih (fun e he => hw e (by simp [he])) (fun e he => hx e (by simp [he]))
    nlinarith [h1, h2]

lemma comboEntries_length (se : String → String → ℚ) (leak : ℚ) (node : String)
    (combo : List (String × Bool)) (t : ℚ) :
    (comboEntries se leak node combo t).length = 2 * combo.length := by
  induction combo generalizing t with
  | nil => rfl
  | cons pb rest ih =>
    obtain ⟨p, b⟩ := pb
    simp only [comboEntries, List.length_cons, ih, List.length_cons]
    ring

lemma boolTuples_length (k : ℕ) : (boolTuples k).length = 2 ^ k := by
  induction k with
  | zero => rfl
  | succ k ih =>
    simp only [boolTuples, List.length_append, List.length_map, ih]
    ring

lemma length_of_mem_boolTuples {k : ℕ} {t : List Bool} (h : t ∈ boolTuples k) :
    t.length = k := by
  induction k generalizing t with
  | zero => simp only [boolTuples, List.mem_singleton] at h; simp [h]
  | succ k ih =>
    simp only [boolTuples, List.mem_append, List.mem_map] at h
    rcases h with ⟨s, hs, rfl⟩ | ⟨s, hs, rfl⟩ <;> simp [ih hs]

/-- The notebook's CPT loop stores `2 * k * 2^k` probability entries for a
node with `k` parents: two entries per parent position of each of the `2^k`
combinations. -/
lemma cptNode_length (se : String → String → ℚ) (leak : ℚ) (node : String)
    (incoming : List String) :
    (cptNode se leak node incoming).length =
      2 * incoming.length * 2 ^ incoming.length := by
  unfold cptNode
  rw [List.length_flatMap]
  have hconst : ∀ combo ∈ cptCombos incoming,
      (comboEntries se leak node combo 1).length = 2 * incoming.length := by
    intro combo hc
    obtain ⟨t, ht, rfl⟩ := List.mem_map.mp hc
    rw [comboEntries_length, List.length_zip, length_of_mem_boolTuples ht,
      min_self]
  calc ((cptCombos incoming).map
          (fun combo => (comboEntries se leak node combo 1).length)).sum
      = ((cptCombos incoming).map
          (fun _ => 2 * incoming.length)).sum := by
        exact congrArg List.sum (List.map_congr_left hconst)
    _ = (cptCombos incoming).length * (2 * incoming.length) := by
        rw [List.map_const']
        simp [List.sum_replicate, smul_eq_mul]
    _ = 2 * incoming.length * 2 ^ incoming.length := by
        simp only [cptCombos, List.length_map, boolTuples_length]
        ring

lemma comboEntriesPL_const (se : String → String → ℚ) (leak : ℚ)
    (node : String) (combo : List (String × Bool)) (t : ℚ) :
    comboEntriesPL se (fun _ => leak) node combo t =
      comboEntries se leak node combo t := by
  induction combo generalizing t with
  | nil => rfl
  | cons pb rest ih =>
    obtain ⟨p, b⟩ := pb
    simp only [comboEntriesPL, comboEntries, ih]

lemma sum_map_boolTuples (fs : List Factor) :
    ∀ pre, ((boolTuples fs.length).map (fun bs => jointProbAux fs pre bs)).sum =
      jointSumFrom fs pre := by
  induction fs with
  | nil => intro pre; simp [boolTuples, jointProbAux, jointSumFrom]
  | cons f fs ih =>
    intro pre
    show ((boolTuples (fs.length + 1)).map
      (fun bs => jointProbAux (f :: fs) pre bs)).sum = _
    rw [show boolTuples (fs.length + 1) =
      ((boolTuples fs.length).map (fun t => true :: t)) ++
      ((boolTuples fs.length).map (fun t => false :: t)) from rfl]
    rw [List.map_append, List.sum_append, List.map_map, List.map_map]
    have htrue : ((boolTuples fs.length).map
        ((fun bs => jointProbAux (f :: fs) pre bs) ∘ (fun t => true :: t))).sum =
        f pre true * jointSumFrom fs (pre ++ [true]) := by
      rw [show ((fun bs => jointProbAux (f :: fs) pre bs) ∘ (fun t => true :: t)) =
        (fun t => f pre true * jointProbAux fs (pre ++ [true]) t) from rfl]
      rw [List.sum_map_mul_left, ih]
    have hfalse : ((boolTuples fs.length).map
        ((fun bs => jointProbAux (f :: fs) pre bs) ∘ (fun t => false :: t))).sum =
        f pre false * jointSumFrom fs (pre ++ [false]) := by
      rw [show ((fun bs => jointProbAux (f :: fs) pre bs) ∘ (fun t => false :: t)) =
        (fun t => f pre false * jointProbAux fs (pre ++ [false]) t) from rfl]
      rw [List.sum_map_mul_left, ih]
    rw [htrue, hfalse]
    rfl

lemma jointSumFrom_eq_one (fs : List Factor)
    (hnorm : ∀ f ∈ fs, ∀ pre, f pre true + f pre false = 1) :
    ∀ pre, jointSumFrom fs pre = 1 := by
  induction fs with
  | nil => intro pre; rfl
  | cons f fs ih =>
    intro pre
    have h1 := ih (fun g hg => hnorm g (List.mem_cons_of_mem f hg))
    simp only [jointSumFrom, h1, mul_one]
    exact hnorm f (List.mem_cons_self f fs) pre

lemma sum_filter_add_sum_filter_not (l : List (List Bool))
    (p : List Bool → Bool) (f : List Bool → ℚ) :
    ((l.filter p).map f).sum + ((l.filter (fun x => !(p x))).map f).sum =
      (l.map f).sum := by
  induction l with
  | nil => simp
  | cons a t ih =>
    by_cases h : p a = true
    · simp only [List.filter_cons, h, if_pos, List.map_cons, List.sum_cons,
        Bool.not_true, if_neg]
      simp only [List.filter_cons, h, Bool.not_true, Bool.false_eq_true,
        if_false, List.map_cons, List.sum_cons]
      rw [add_assoc, ih]
    · simp only [List.filter_cons, h, Bool.not_eq_true] at *
      simp only [List.filter_cons, h, Bool.false_eq_true, if_false,
        Bool.not_false, if_true, List.map_cons, List.sum_cons]
      rw [add_left_comm, ih]

/-- The two extracted marginals of any node partition the total joint mass. -/
lemma margMass_add (fs : List Factor) (j : ℕ) :
    margMass fs j false + margMass fs j true =
      ((boolTuples fs.length).map (jointProb fs)).sum := by
  unfold margMass
  rw [add_comm]
  have hp : (fun bs : List Bool => bs.getD j false == false) =
      (fun bs : List Bool => !(bs.getD j false == true)) := by
    funext bs
    cases bs.getD j false <;> rfl
  rw [hp]
  exact sum_filter_add_sum_filter_not (boolTuples fs.length)
    (fun bs => bs.getD j false == true) (jointProb fs)

lemma noIncoming_spec {remaining : List String} {edges : List (String × String)}
    {n : String} (h : noIncoming remaining edges n = true) :
    ∀ e ∈ edges, ¬(e.2 = n ∧ e.1 ∈ remaining) :=
  of_decide_eq_true h

/-- A successful topological sort is a permutation of the remaining nodes. -/
lemma topoAux_perm (edges : List (String × String)) :
    ∀ (fuel : ℕ) (r order : List String),
      topoAux edges fuel r = some order → order.Perm r := by
  intro fuel
  induction fuel with
  | zero =>
    intro r order h
    cases r with
    | nil => cases h; exact List.Perm.refl _
    | cons a rest => exact absurd h (by simp [topoAux])
  | succ fuel ih =>
    intro r order h
    cases r with
    | nil => cases h; exact List.Perm.refl _
    | cons a rest =>
      simp only [topoAux] at h
      cases hfind : (a :: rest).find? (noIncoming (a :: rest) edges) with
      | none => rw [hfind] at h; cases h
      | some n =>
        rw [hfind] at h
        dsimp only [] at h
        cases hrec : topoAux edges fuel ((a :: rest).erase n) with
        | none => rw [hrec] at h; cases h
        | some order' =>
          rw [hrec] at h
          cases h
          have hn : n ∈ a :: rest := List.mem_of_find?_eq_some hfind
          exact ((ih _ _ hrec).cons n).trans (List.perm_cons_erase hn).symm

/-- In a successful topological sort, the source of every edge inside the
remaining set is emitted strictly before its destination. -/
lemma topoAux_sorted (edges : List (String × String)) :
    ∀ (fuel : ℕ) (r order : List String),
      topoAux edges fuel r = some order →
      ∀ e ∈ edges, e.1 ∈ r → e.2 ∈ r →
        order.indexOf e.1 < order.indexOf e.2 := by
  intro fuel
  induction fuel with
  | zero =>
    intro r order h
    cases r with
    | nil => intro e _ hu _; exact absurd hu (List.not_mem_nil _)
    | cons a rest => exact absurd h (by simp [topoAux])
  | succ fuel ih =>
    intro r order h
    cases r with
    | nil => intro e _ hu _; exact absurd hu (List.not_mem_nil _)
    | cons a rest =>
      simp only [topoAux] at h
      cases hfind : (a :: rest).find? (noIncoming (a :: rest) edges) with
      | none => rw [hfind] at h; cases h
      | some n =>
        rw [hfind] at h
        dsimp only [] at h
        cases hrec : topoAux edges fuel ((a :: rest).erase n) with
        | none => rw [hrec] at h; cases h
        | some order' =>
          rw [hrec] at h
          cases h
          intro e he hu hv
          have hno := noIncoming_spec (List.find?_some hfind)
          have hvne : e.2 ≠ n := by
            intro hveq
            exact hno e he ⟨hveq, hu⟩
          have hv' : e.2 ∈ (a :: rest).erase n :=
            (List.mem_erase_of_ne hvne).mpr hv
          by_cases hune : e.1 = n
          · rw [hune, List.indexOf_cons_self,
              List.indexOf_cons_ne _ (Ne.symm hvne)]
            exact Nat.succ_pos _
          · have hu' : e.1 ∈ (a :: rest).erase n :=
              (List.mem_erase_of_ne hune).mpr hu
            rw [List.indexOf_cons_ne _ (Ne.symm hune),
              List.indexOf_cons_ne _ (Ne.symm hvne)]
            exact Nat.succ_lt_succ (ih _ _ hrec e he hu' hv')

/-- Following a chain of edges never decreases the topological position. -/
lemma chain_indexOf_le (pairs : List (String × String)) (order : List String)
    (hlt : ∀ e ∈ pairs, order.indexOf e.1 < order.indexOf e.2) :
    ∀ (xs : List String) (x : String),
      List.Chain (fun a b => (a, b) ∈ pairs) x xs →
      order.indexOf x ≤ order.indexOf (xs.getLastD x) := by
  intro xs
  induction xs with
  | nil => intro x _; exact Nat.le_refl _
  | cons y ys ih =>
    intro x hchain
    rcases List.chain_cons.mp hchain with ⟨hxy, hrest⟩
    rw [List.getLastD_cons]
    exact Nat.le_trans (Nat.le_of_lt (hlt (x, y) hxy)) (ih y hrest)

/-- A topologically sorted edge list admits no directed cycle. -/
lemma no_cycle_of_sorted (pairs : List (String × String)) (order : List String)
    (hlt : ∀ e ∈ pairs, order.indexOf e.1 < order.indexOf e.2) :
    ¬ HasCycle pairs := by
  rintro ⟨x, xs, hchain, hwrap⟩
  have h1 := chain_indexOf_le pairs order hlt xs x hchain
  have h2 := hlt (xs.getLastD x, x) hwrap
  exact Nat.lt_irrefl _ (Nat.lt_of_le_of_lt h1 h2)

end DTBase

open DTBase

/-- Claim C3: for every sample and every (parent, child) pair with at least one
contributing edge whose raw weights (m1 of the edge's source times the edge's
m3) are nonnegative with a nonzero sum, the normalized per-edge weights sum to
exactly 1 (hence within 1e-9), and the super-edge strength — the weight-sum of
the edges' m2 draws — lies between the minimum and the maximum of those m2
draws. -/
theorem superEdge_weights_sum_one_and_convex
    (edges : List CausalEdge) (m1 m2 m3 : String → ℚ) (p c : String)
    (hne : pairEdges edges p c ≠ [])
    (hnz : normWeights edges m1 m3 p c ≠ 0)
    (hnn : ∀ e ∈ pairEdges edges p c, 0 ≤ rawWeight m1 m3 e) :
    ((pairEdges edges p c).map (weight edges m1 m3)).sum = 1 ∧
    ∃ lo ∈ m2Draws edges m2 p c, ∃ hi ∈ m2Draws edges m2 p c,
      (∀ x ∈ m2Draws edges m2 p c, lo ≤ x ∧ x ≤ hi) ∧
      lo ≤ superEdge edges m1 m2 m3 p c ∧ superEdge edges m1 m2 m3 p c ≤ hi := by
  have hmapw : (pairEdges edges p c).map (weight edges m1 m3) =
      (pairEdges edges p c).map
        (fun e => rawWeight m1 m3 e / normWeights edges m1 m3 p c) := by
    refine List.map_congr_left (fun e he => ?_)
    obtain ⟨hp, hc⟩ := mem_pairEdges he
    simp [weight, hp, hc]
  have hsum1 : ((pairEdges edges p c).map (weight edges m1 m3)).sum = 1 := by
    rw [hmapw, sum_map_div]
    exact div_self hnz
  refine ⟨hsum1, ?_⟩
  have hdne : m2Draws edges m2 p c ≠ [] := by
    simpa [m2Draws] using hne
  obtain ⟨lo, hlom, hlomin⟩ := exists_min_mem _ hdne
  obtain ⟨hi, hhim, hhimax⟩ := exists_max_mem _ hdne
  have hS : (0:ℚ) ≤ normWeights edges m1 m3 p c := by
    unfold normWeights
    refine List.sum_nonneg (fun x hx => ?_)
    obtain ⟨e, he, rfl⟩ := List.mem_map.mp hx
    exact hnn e he
  have hwnn : ∀ e ∈ pairEdges edges p c, 0 ≤ weight edges m1 m3 e := by
    intro e he
    obtain ⟨hp, hc⟩ := mem_pairEdges he
    simp only [weight, hp, hc]
    exact div_nonneg (hnn e he) hS
  have hxlo : ∀ e ∈ pairEdges edges p c, lo ≤ m2 e.edge_id := by
    intro e he
    exact hlomin _ (List.mem_map_of_mem _ he)
  have hxhi : ∀ e ∈ pairEdges edges p c, m2 e.edge_id ≤ hi := by
    intro e he
    exact hhimax _ (List.mem_map_of_mem _ he)
  have hlow := le_weighted_sum (pairEdges edges p c) (weight edges m1 m3)
      (fun e => m2 e.edge_id) lo hwnn hxlo
  have hupp := weighted_sum_le (pairEdges edges p c) (weight edges m1 m3)
      (fun e => m2 e.edge_id) hi hwnn hxhi
  rw [hsum1, mul_one] at hlow hupp
  exact ⟨lo, hlom, hi, hhim, fun x hx => ⟨hlomin x hx, hhimax x hx⟩,
    hlow, hupp⟩

/-- Witness for C3 at a concrete sample: two edges on the pair (a, b) with m1
draws 1/2, m3 draws 1 and m2 draws 4/5 and 2/5; the normalized weights sum to
1 and the super-edge strength 3/5 lies between 2/5 and 4/5. -/
theorem superEdge_weights_sum_one_and_convex_witness :
    ((pairEdges edgesW "a" "b").map
        (weight edgesW (fun _ => 1/2) (fun _ => 1))).sum = 1 ∧
    ∃ lo ∈ m2Draws edgesW (fun s => if s = "e1" then 4/5 else 2/5) "a" "b",
    ∃ hi ∈ m2Draws edgesW (fun s => if s = "e1" then 4/5 else 2/5) "a" "b",
      (∀ x ∈ m2Draws edgesW (fun s => if s = "e1" then 4/5 else 2/5) "a" "b",
        lo ≤ x ∧ x ≤ hi) ∧
      lo ≤ superEdge edgesW (fun _ => 1/2)
            (fun s => if s = "e1" then 4/5 else 2/5) (fun _ => 1) "a" "b" ∧
      superEdge edgesW (fun _ => 1/2)
            (fun s => if s = "e1" then 4/5 else 2/5) (fun _ => 1) "a" "b" ≤ hi :=
  superEdge_weights_sum_one_and_convex edgesW (fun _ => 1/2)
    (fun s => if s = "e1" then 4/5 else 2/5) (fun _ => 1) "a" "b"
    (by decide)
    (by norm_num [normWeights, pairEdges, edgesW, rawWeight])
    (by
      intro e he
      simp only [pairEdges, edgesW, List.mem_filter, List.mem_cons,
        List.not_mem_nil, or_false] at he
      rcases he.1 with rfl | rfl <;> norm_num [rawWeight])

/-- Claim C7: for every parameter with valid bounds (lower ≤ upper) — each
reference's m1, each edge's m2 and m3, and the leak with its fixed bounds
[0.90, 0.99] — the value drawn by the uniform sampler lies within the
parameter's own [lower, upper] interval, for every sample. -/
theorem sampled_values_within_bounds (lo hi u v : ℚ)
    (hle : lo ≤ hi) (hu0 : 0 ≤ u) (hu1 : u ≤ 1) (hv0 : 0 ≤ v) (hv1 : v ≤ 1) :
    (lo ≤ uniformDraw lo hi u ∧ uniformDraw lo hi u ≤ hi) ∧
    (9/10 ≤ leakDraw v ∧ leakDraw v ≤ 99/100) := by
  unfold leakDraw uniformDraw
  refine ⟨⟨?_, ?_⟩, ?_, ?_⟩ <;> nlinarith

/-- Witness for C7 at concrete bounds [1/4, 3/4] and unit draws 1/2 and 1/3. -/
theorem sampled_values_within_bounds_witness :
    ((1:ℚ)/4 ≤ uniformDraw (1/4) (3/4) (1/2) ∧
      uniformDraw (1/4) (3/4) (1/2) ≤ 3/4) ∧
    (9/10 ≤ leakDraw (1/3) ∧ leakDraw (1/3) ≤ 99/100) :=
  sampled_values_within_bounds (1/4) (3/4) (1/2) (1/3)
    (by norm_num) (by norm_num) (by norm_num) (by norm_num) (by norm_num)

/-- Claim C5: for every node recorded in the graph with zero parents, the
probability vector installed on it at inference time is exactly [1, 0], for
every sample (every super-edge assignment and leak value). -/
theorem zero_parent_node_installs_one_zero
    (adj : List (String × List String)) (se : String → String → ℚ) (leak : ℚ)
    (n : String) (h : lookupAdj adj n = some []) :
    installProbs (cptsAt adj se leak) n = [1, 0] := by
  have hc : cptsAt adj se leak n = [] := by
    simp [cptsAt, h, cptNode, cptCombos, boolTuples, comboEntries]
  simp [installProbs, hc]

/-- Witness for C5: a concrete graph in which node "root" has no parents. -/
theorem zero_parent_node_installs_one_zero_witness :
    installProbs (cptsAt [("root", []), ("b", ["root"])]
      (fun _ _ => 1/2) (9/10)) "root" = [1, 0] :=
  zero_parent_node_installs_one_zero [("root", []), ("b", ["root"])]
    (fun _ _ => 1/2) (9/10) "root" (by decide)

/-- Claim C10: after CPT generation the stored list of a node with k parents
in the graph holds exactly 2·k·2^k probability entries; a node with zero
parents, or a node absent from the graph, keeps an empty list. -/
theorem cpt_stored_entry_count
    (adj : List (String × List String)) (se : String → String → ℚ) (leak : ℚ)
    (n : String) :
    (∀ incoming, lookupAdj adj n = some incoming →
      (cptsAt adj se leak n).length =
        2 * incoming.length * 2 ^ incoming.length) ∧
    (lookupAdj adj n = some [] → cptsAt adj se leak n = []) ∧
    (lookupAdj adj n = none → cptsAt adj se leak n = []) := by
  refine ⟨?_, ?_, ?_⟩
  · intro incoming h
    simp only [cptsAt, h]
    exact cptNode_length se leak n incoming
  · intro h
    simp [cptsAt, h, cptNode, cptCombos, boolTuples, comboEntries]
  · intro h
    simp [cptsAt, h]

/-- Witness for C10: node "b" with two parents stores 2·2·2² = 16 entries. -/
theorem cpt_stored_entry_count_witness :
    (cptsAt adjC1 seC1 (9/10) "b").length = 2 * 2 * 2 ^ 2 := by
  have h : lookupAdj adjC1 "b" = some ["a1", "a2"] := by decide
  simpa using
    (cpt_stored_entry_count adjC1 seC1 (9/10) "b").1 ["a1", "a2"] h

/-- Claim C8: within one Monte Carlo sample the single leak draw of that
sample is the leak value used in the CPT computation of every node: the
notebook's CPT generator coincides, at the constant per-node leak assignment,
with the variant that differentiates leak per node — for every node, graph
and super-edge assignment. -/
theorem single_leak_shared_by_all_nodes
    (adj : List (String × List String)) (se : String → String → ℚ) (leak : ℚ)
    (n : String) :
    cptsAt adj se leak n = cptsAtPL adj se (fun _ => leak) n := by
  unfold cptsAt cptsAtPL
  cases lookupAdj adj n with
  | none => rfl
  | some incoming =>
    show cptNode se leak n incoming = cptNodePL se (fun _ => leak) n incoming
    unfold cptNode cptNodePL
    exact congrArg (fun f => (cptCombos incoming).flatMap f)
      (funext (fun combo => (comboEntriesPL_const se leak n combo 1).symm))

/-- Claim C1 (code bug exhibit): at a node with two parents the notebook's CPT
loop — whose `extend` call is nested inside the parent loop — emits a
probability pair after every parent position, producing 16 entries (two pairs
per combination, the first of each using only a partial product), whereas the
noisy-OR specification emits exactly one pair per combination (8 entries), so
the CPT cannot be indexed by combination position. -/
theorem cpt_extend_inside_parent_loop :
    cptsAt adjC1 seC1 (9/10) "b" =
      [11/20, 9/20, 53/80, 27/80, 11/20, 9/20, 11/20, 9/20,
       1/10, 9/10, 13/40, 27/40, 1/10, 9/10, 1/10, 9/10] ∧
    specCptNode seC1 (9/10) "b" ["a1", "a2"] =
      [53/80, 27/80, 11/20, 9/20, 13/40, 27/40, 1/10, 9/10] ∧
    cptsAt adjC1 seC1 (9/10) "b" ≠ specCptNode seC1 (9/10) "b" ["a1", "a2"] := by
  have h1 : cptsAt adjC1 seC1 (9/10) "b" =
      [11/20, 9/20, 53/80, 27/80, 11/20, 9/20, 11/20, 9/20,
       1/10, 9/10, 13/40, 27/40, 1/10, 9/10, 1/10, 9/10] := by
    simp [cptsAt, lookupAdj, adjC1, seC1, cptNode, cptCombos, boolTuples,
      comboEntries]
    norm_num
  have h2 : specCptNode seC1 (9/10) "b" ["a1", "a2"] =
      [53/80, 27/80, 11/20, 9/20, 13/40, 27/40, 1/10, 9/10] := by
    simp [specCptNode, seC1, cptCombos, boolTuples, noisyOrProd]
    norm_num
  refine ⟨h1, h2, ?_⟩
  rw [h1, h2]
  intro h
  have hlen := congrArg List.length h
  simp at hlen

/-- Claim C2 (code bug exhibit): the notebook's network-construction cell adds
every node but its edge loop only references `add_edge` without calling it,
so on a concrete input with two super-edges the built network still has an
empty edge list — no super-edge is added before inference. -/
theorem build_dt_base_adds_no_edges :
    (buildDtBase ["a", "b", "tq"] [("a", "b"), ("b", "tq")]).edges = [] ∧
    (buildDtBase ["a", "b", "tq"] [("a", "b"), ("b", "tq")]).nodes =
      ["a", "b", "tq"] := by
  constructor <;> rfl

/-- Claim C9: across all iterations of the inference loop the belief network's
node set and edge set are exactly the initial ones — each iteration rebinds
only the probability vectors installed on the nodes — for every inference
function, every per-sample CPT assignment, every sample list and every
starting state. -/
theorem inference_loop_preserves_network
    (infer : BbnState → ℚ × ℚ) (cptsOfs : ℕ → String → List ℚ)
    (samples : List ℕ) (st : BbnState) :
    ((runSamples infer cptsOfs samples st).1).net = st.net := by
  suffices h : ∀ (acc : BbnState × List (ℚ × ℚ)),
      ((samples.foldl
        (fun acc s =>
          let out := inferStep infer cptsOfs s acc.1
          (out.1, acc.2 ++ [out.2])) acc).1).net = acc.1.net by
    exact h (st, [])
  induction samples with
  | nil => intro acc; rfl
  | cons s rest ih =>
    intro acc
    rw [List.foldl_cons, ih]
    rfl

/-- Claim C4: for every sample whose per-node conditional factors are
well-formed (each conditional pair sums to 1), the two marginal probabilities
extracted for the target node sum to exactly 1 — hence within the 1e-9
tolerance — and extraction returns them; and for any sample in which the
extracted pair violates the tolerance, the run fails with
`InferenceConsistencyError`. -/
theorem target_marginal_consistency_contract (fs : List Factor) (j : ℕ) :
    ((∀ f ∈ fs, ∀ pre, f pre true + f pre false = 1) →
      (marginalPair fs j).1 + (marginalPair fs j).2 = 1 ∧
      extractTarget fs j = Except.ok (marginalPair fs j)) ∧
    (¬ |(marginalPair fs j).1 + (marginalPair fs j).2 - 1| ≤ invTol →
      extractTarget fs j = Except.error DtError.inferenceConsistency) := by
  constructor
  · intro hnorm
    have hsum : (marginalPair fs j).1 + (marginalPair fs j).2 = 1 := by
      show margMass fs j false + margMass fs j true = 1
      rw [margMass_add]
      rw [show (jointProb fs) = (fun bs => jointProbAux fs [] bs) from rfl]
      rw [sum_map_boolTuples fs [], jointSumFrom_eq_one fs hnorm]
    have hcond : |(marginalPair fs j).1 + (marginalPair fs j).2 - 1| ≤ invTol := by
      rw [hsum]
      norm_num [invTol]
    refine ⟨hsum, ?_⟩
    simp only [extractTarget]
    rw [if_pos hcond]
  · intro h
    simp only [extractTarget]
    rw [if_neg h]

/-- Witness for C4 on the concrete two-node network `factorsW` with target at
position 1: the extracted marginals sum to 1 and extraction succeeds. -/
theorem target_marginal_consistency_contract_witness :
    (marginalPair factorsW 1).1 + (marginalPair factorsW 1).2 = 1 ∧
    extractTarget factorsW 1 = Except.ok (marginalPair factorsW 1) :=
  (target_marginal_consistency_contract factorsW 1).1 (by
    intro f hf pre
    simp only [factorsW, List.mem_cons, List.not_mem_nil, or_false] at hf
    rcases hf with rfl | rfl
    · norm_num
    · rcases pre with _ | ⟨b, rest⟩
      · norm_num
      · cases b <;> norm_num)

/-- Claim C6: graph construction fails with `GraphValidationError` whenever
the edge set contains a self-loop or a cycle or the designated target node
does not exist; on success the returned order is a topological sort of all
the nodes (so one exists) and the target is among the nodes. -/
theorem graph_validation_contract (nodes : List String)
    (pairs : List (String × String)) (target : String) :
    ((∃ a, (a, a) ∈ pairs) →
      ∃ msg, buildGraph nodes pairs target =
        Except.error (DtError.graphValidation msg)) ∧
    (HasCycle pairs →
      ∃ msg, buildGraph nodes pairs target =
        Except.error (DtError.graphValidation msg)) ∧
    (target ∉ nodes →
      ∃ msg, buildGraph nodes pairs target =
        Except.error (DtError.graphValidation msg)) ∧
    (∀ order, buildGraph nodes pairs target = Except.ok order →
      (∀ e ∈ pairs, order.indexOf e.1 < order.indexOf e.2) ∧
      order.Perm nodes ∧ target ∈ nodes) := by
  have hok : ∀ order, buildGraph nodes pairs target = Except.ok order →
      (∀ e ∈ pairs, order.indexOf e.1 < order.indexOf e.2) ∧
      order.Perm nodes ∧ target ∈ nodes := by
    intro order h
    unfold buildGraph at h
    by_cases hA : allEndpointsIn nodes pairs = true
    · rw [if_pos hA] at h
      cases hT : topoSort nodes pairs with
      | none => rw [hT] at h; exact Except.noConfusion h
      | some ord =>
        rw [hT] at h
        dsimp only [] at h
        by_cases hC : nodes.contains target = true
        · rw [if_pos hC] at h
          have hord : ord = order := by
            injection h
          subst hord
          have hend : ∀ e ∈ pairs, e.1 ∈ nodes ∧ e.2 ∈ nodes := by
            intro e he
            have h' := List.all_eq_true.mp hA e he
            simp only [Bool.and_eq_true] at h'
            constructor
            · simpa using h'.1
            · simpa using h'.2
          refine ⟨?_, topoAux_perm pairs nodes.length nodes ord hT, by simpa using hC⟩
          intro e he
          exact topoAux_sorted pairs nodes.length nodes ord hT e he
            (hend e he).1 (hend e he).2
        · rw [if_neg hC] at h; exact Except.noConfusion h
    · rw [if_neg hA] at h; exact Except.noConfusion h
  have htotal : (∃ order, buildGraph nodes pairs target = Except.ok order) ∨
      (∃ msg, buildGraph nodes pairs target =
        Except.error (DtError.graphValidation msg)) := by
    unfold buildGraph
    by_cases hA : allEndpointsIn nodes pairs = true
    · rw [if_pos hA]
      cases hT : topoSort nodes pairs with
      | none => exact Or.inr ⟨"cycle", rfl⟩
      | some ord =>
        dsimp only []
        by_cases hC : nodes.contains target = true
        · rw [if_pos hC]; exact Or.inl ⟨ord, rfl⟩
        · rw [if_neg hC]; exact Or.inr ⟨"missing target", rfl⟩
    · rw [if_neg hA]; exact Or.inr ⟨"dangling edge endpoint", rfl⟩
  have hcycpart : HasCycle pairs →
      ∃ msg, buildGraph nodes pairs target =
        Except.error (DtError.graphValidation msg) := by
    intro hcyc
    rcases htotal with ⟨order, hokk⟩ | herr
    · exact absurd hcyc (no_cycle_of_sorted pairs order (hok order hokk).1)
    · exact herr
  refine ⟨?_, hcycpart, ?_, hok⟩
  · rintro ⟨a, ha⟩
    exact hcycpart ⟨a, [], List.Chain.nil, ha⟩
  · intro htgt
    rcases htotal with ⟨order, hokk⟩ | herr
    · exact absurd (hok order hokk).2.2 htgt
    · exact herr

/-- Witness for C6: on the two-node cyclic input a → b → a the builder fails
with a `GraphValidationError`. -/
theorem graph_validation_contract_witness :
    ∃ msg, buildGraph ["a", "b"] [("a", "b"), ("b", "a")] "a" =
      Except.error (DtError.graphValidation msg) :=
  (graph_validation_contract ["a", "b"] [("a", "b"), ("b", "a")] "a").2.1
    ⟨"a", ["b"], List.Chain.cons (by decide) List.Chain.nil, by decide⟩
